import Mathlib

/-!
Verification of the presence-simulator core (app.js / api.js) against its
natural-language specification.  The JavaScript source is shallowly embedded:
times are modelled as integers (milliseconds for timestamps, minutes for
schedule arithmetic), device histories as lists of events, and the mutable
scheduler state as an explicit record threaded through the operations.
-/

namespace PresenceSim

/-- Historical event record, as built in `recordDeviceEvent` (app.js:1685-1692):
`{timestamp, value, dayOfWeek, hourOfDay, minuteOfHour, timeMinutes}`. -/
structure Event where
  timestamp : Int
  value : Bool
  dayOfWeek : Int
  hourOfDay : Int
  minuteOfHour : Int
  timeMinutes : Int
  deriving DecidableEq, Repr

/-- Fields of the JavaScript `now` date used by the schedule engine:
`getDay()`, `getHours()`, `getMinutes()`. -/
structure NowParts where
  day : Int
  hour : Int
  minute : Int
  deriving DecidableEq, Repr

/-- Delay in minutes computed for one history event by the loop bodies of
`calculateNextEvent` (app.js:1804-1837): hourly ring in test mode,
weekly (7×1440-minute) ring in normal mode. -/
def eventDelay (testMode : Bool) (np : NowParts) (e : Event) : Int :=
  if testMode then
    let currentMinute := np.minute
    if e.minuteOfHour > currentMinute then
      e.minuteOfHour - currentMinute
    else
      (60 - currentMinute) + e.minuteOfHour
  else
    let currentDayOfWeek := np.day
    let currentTimeMinutes := np.hour * 60 + np.minute
    if e.dayOfWeek = currentDayOfWeek then
      if e.timeMinutes > currentTimeMinutes then
        e.timeMinutes - currentTimeMinutes
      else
        (7 * 24 * 60) - currentTimeMinutes + e.timeMinutes
    else
      let d := e.dayOfWeek - currentDayOfWeek
      let daysUntil := if d < 0 then d + 7 else d
      daysUntil * 24 * 60 - currentTimeMinutes + e.timeMinutes

/-- Accumulator step of `calculateNextEvent`: keep `(nextEvent, minDelay)`
when `delayMinutes < minDelay && delayMinutes > 0` (app.js:1813,1839);
`none` plays the role of the initial `minDelay = Infinity`. -/
def calcStep (testMode : Bool) (np : NowParts)
    (acc : Option (Event × Int)) (e : Event) : Option (Event × Int) :=
  let delayMinutes := eventDelay testMode np e
  match acc with
  | none => if delayMinutes > 0 then some (e, delayMinutes) else none
  | some (bestEvent, minDelay) =>
      if delayMinutes < minDelay ∧ delayMinutes > 0 then some (e, delayMinutes)
      else some (bestEvent, minDelay)

/-- Shallow embedding of `calculateNextEvent(history, testMode)`
(app.js:1795-1851).  The implicit `new Date()` is passed as `np`; the
result is `some (nextEvent, minDelay)` or `none` ("no schedule"). -/
def calculateNextEvent (history : List Event) (testMode : Bool)
    (np : NowParts) : Option (Event × Int) :=
  history.foldl (calcStep testMode np) none

/-- Retention window used by `recordDeviceEvent` (app.js:1697) and the daily
cleanup sweep (app.js:2168): `8 * 24 * 60 * 60 * 1000` milliseconds. -/
def keepDuration : Int := 8 * 24 * 60 * 60 * 1000

/-- Event-count cap `MAX_EVENTS` (app.js:1702, api.js:616). -/
def MAX_EVENTS : Nat := 10000

/-- Duplicate check of `recordDeviceEvent` (app.js:1677-1683): the call is
skipped when the last recorded event carries the same value. -/
def isDuplicate (history : List Event) (value : Bool) : Bool :=
  match history.getLast? with
  | some lastEvent => lastEvent.value == value
  | none => false

/-- Event record built by `recordDeviceEvent` (app.js:1685-1692) from the
current date parts. -/
def mkEvent (nowMs : Int) (value : Bool) (np : NowParts) : Event :=
  { timestamp := nowMs
    value := value
    dayOfWeek := np.day
    hourOfDay := np.hour
    minuteOfHour := np.minute
    timeMinutes := np.hour * 60 + np.minute }

/-- Contents of the history array after the in-place `history.push(event)`
(app.js:1694).  The closure armed in `scheduleNextAction` keeps an alias to
this array, so a push is visible to it while the subsequent filter/slice
(which build fresh arrays) are not. -/
def recordAppend (history : List Event) (value : Bool) (nowMs : Int)
    (np : NowParts) : List Event :=
  if isDuplicate history value then history
  else history ++ [mkEvent nowMs value np]

/-- Shallow embedding of `recordDeviceEvent` (app.js:1669-1709): dedup
against the last event, append, drop events older than 8 days, and keep only
the most recent `MAX_EVENTS` entries (`slice(-10000)`).  Returns the list
stored back into `deviceHistory`. -/
def recordDeviceEvent (history : List Event) (value : Bool) (nowMs : Int)
    (np : NowParts) : List Event :=
  if isDuplicate history value then history
  else
    let pushed := history ++ [mkEvent nowMs value np]
    let cutoffTime := nowMs - keepDuration
    let filtered := pushed.filter (fun e => e.timestamp > cutoffTime)
    if filtered.length > MAX_EVENTS then
      filtered.drop (filtered.length - MAX_EVENTS)
    else filtered

/-- Body of the daily cleanup interval `startCleanupTimer` (app.js:2170-2177)
applied to one key's history: keep events strictly newer than the 8-day
cutoff. -/
def cleanupSweep (history : List Event) (nowMs : Int) : List Event :=
  history.filter (fun e => e.timestamp > nowMs - keepDuration)

/-- Target timestamp computed by `syncInitialStates` (app.js:2018-2027):
one hour back in test mode, exactly seven days back in normal mode. -/
def syncTargetMs (nowMs : Int) (testMode : Bool) : Int :=
  if testMode then nowMs - 60 * 60 * 1000
  else nowMs - 7 * 24 * 60 * 60 * 1000

/-- Forward scan of `syncInitialStates` (app.js:2048-2056): remember the last
event with `timestamp ≤ target` and break at the first event beyond it. -/
def findLastBefore (targetMs : Int) : List Event → Option Event → Option Event
  | [], acc => acc
  | e :: rest, acc =>
      if e.timestamp ≤ targetMs then findLastBefore targetMs rest (some e)
      else acc

/-- Outcome classification used by `syncInitialStates` (app.js:2038-2097). -/
inductive SyncStatus where
  | noHistory
  | synced
  | alreadyCorrect
  | noHistoricalState
  deriving DecidableEq, Repr

/-- Result of the per-device sync step: its status and the list of corrective
writes issued to the device. -/
structure SyncOutcome where
  status : SyncStatus
  writes : List Bool
  deriving DecidableEq, Repr

/-- Per-device body of `syncInitialStates` (app.js:2038-2097) for a tracked
key, given the device's current live value: pick the last event at or before
the target time and write its value only when the live value differs. -/
def syncDeviceState (history : List Event) (nowMs : Int) (testMode : Bool)
    (liveValue : Bool) : SyncOutcome :=
  if history.isEmpty then ⟨SyncStatus.noHistory, []⟩
  else
    match findLastBefore (syncTargetMs nowMs testMode) history none with
    | some lastEventBeforeTarget =>
        if liveValue ≠ lastEventBeforeTarget.value then
          ⟨SyncStatus.synced, [lastEventBeforeTarget.value]⟩
        else
          ⟨SyncStatus.alreadyCorrect, []⟩
    | none => ⟨SyncStatus.noHistoricalState, []⟩

/-- Device interactions performed by one `executeAction` call: the number of
live-value reads and the list of values written. -/
structure ExecOutcome where
  reads : Nat
  writes : List Bool
  deriving DecidableEq, Repr

/-- Shallow embedding of `executeAction(trackingKey, value)`
(app.js:1980-2011): bail out when vacation mode is off or the key is no
longer tracked; otherwise read the live value and write `value` only when
the live value differs. -/
def executeAction (vacationModeActive : Bool) (tracked : Bool)
    (currentValue : Bool) (value : Bool) : ExecOutcome :=
  if ¬vacationModeActive then ⟨0, []⟩
  else if ¬tracked then ⟨0, []⟩
  else if currentValue = value then ⟨1, []⟩
  else ⟨1, [value]⟩

/-- One armed replay timer: the value the closure will replay, the timeout
handle, and the `history` array the closure captured at arm time
(app.js:1908-1912). -/
structure Timer where
  value : Bool
  handle : Nat
  capturedHistory : List Event
  deriving DecidableEq, Repr

/-- Scheduler timer state: the `scheduledTimeouts` map (insertion-ordered
association list, JavaScript `Map` semantics) and the multiset of timeout
handles armed via `setTimeout` and not yet cleared. -/
structure SchedState where
  scheduledTimeouts : List (String × Timer)
  outstanding : List Nat
  deriving DecidableEq, Repr

/-- Lookup in a JavaScript-`Map`-style association list (`Map.get`). -/
def mapGet : List (String × Timer) → String → Option Timer
  | [], _ => none
  | (k', t) :: rest, k => if k' = k then some t else mapGet rest k

/-- Update in a JavaScript-`Map`-style association list (`Map.set`): replace
the binding in place when the key exists, append otherwise. -/
def mapSet : List (String × Timer) → String → Timer → List (String × Timer)
  | [], k, t => [(k, t)]
  | (k', t') :: rest, k, t =>
      if k' = k then (k, t) :: rest else (k', t') :: mapSet rest k t

/-- Shallow embedding of `scheduleNextAction(deviceId, history)`
(app.js:1853-1920): skip when vacation mode is off or the history is empty;
otherwise compute the next event and, when one exists, clear the key's
previous timeout, arm a fresh one (handle `freshHandle`), and store it in
`scheduledTimeouts`.  The armed timer captures `history` itself. -/
def scheduleNextAction (s : SchedState) (vacationModeActive testMode : Bool)
    (deviceId : String) (history : List Event) (np : NowParts)
    (freshHandle : Nat) : SchedState :=
  if ¬vacationModeActive then s
  else if history.isEmpty then s
  else
    match calculateNextEvent history testMode np with
    | some (nextEvent, _minDelay) =>
        let afterCancel :=
          match mapGet s.scheduledTimeouts deviceId with
          | some t => { s with outstanding := s.outstanding.erase t.handle }
          | none => s
        { scheduledTimeouts :=
            mapSet afterCancel.scheduledTimeouts deviceId
              ⟨nextEvent.value, freshHandle, history⟩
          outstanding := freshHandle :: afterCancel.outstanding }
    | none => s

/-- Shallow embedding of `disableVacationMode` (app.js:1766-1787) restricted
to the timer state: when vacation mode was active, clear every timeout in
`scheduledTimeouts` and empty the map; when it was already inactive, return
unchanged. -/
def disableVacationMode (s : SchedState) (vacationModeActive : Bool) :
    SchedState :=
  if ¬vacationModeActive then s
  else
    { scheduledTimeouts := []
      outstanding :=
        (s.scheduledTimeouts.map (fun p => p.2.handle)).foldl
          (fun l h => l.erase h) s.outstanding }

/-- Body of the timeout closure armed at app.js:1908-1912: run
`executeAction(deviceId, nextEvent.value)` and then
`scheduleNextAction(deviceId, history)` where `history` is the closure's
captured array — not a fresh read of `deviceHistory`. -/
def fireTimer (s : SchedState) (t : Timer) (vacationModeActive testMode : Bool)
    (deviceId : String) (tracked : Bool) (currentValue : Bool) (np : NowParts)
    (freshHandle : Nat) : ExecOutcome × SchedState :=
  (executeAction vacationModeActive tracked currentValue t.value,
   scheduleNextAction s vacationModeActive testMode deviceId t.capturedHistory
     np freshHandle)

/-- Recomputation performed when a timer fires, as the source writes it
(app.js:1911): the captured `history` array is consulted. -/
def fireRecompute (t : Timer) (testMode : Bool) (np : NowParts) :
    Option (Event × Int) :=
  calculateNextEvent t.capturedHistory testMode np

/-- Recomputation the specification describes: the key's current history as
stored in the history table at fire time.  Kept separate so it can be
compared with `fireRecompute`. -/
def fireRecomputeSpec (storedHistory : List Event) (testMode : Bool)
    (np : NowParts) : Option (Event × Int) :=
  calculateNextEvent storedHistory testMode np

/-- Comparator order used by the `sort` calls of `importDeviceHistory`
(api.js:598,613): ascending event timestamp. -/
def tsLE (a b : Event) : Prop := a.timestamp ≤ b.timestamp

instance : DecidableRel tsLE := fun a b => inferInstanceAs (Decidable (a.timestamp ≤ b.timestamp))

/-- New-event selection of `importDeviceHistory` (api.js:597-607): sort the
imported points by timestamp and keep those whose exact timestamp is not
already present in the stored history (`existingTimestamps` set check). -/
def importNewEvents (history : List Event) (importedEvents : List Event) :
    List Event :=
  (List.insertionSort tsLE importedEvents).filter
    (fun e => ¬ (history.map (fun x => x.timestamp)).contains e.timestamp)

/-- History-merging step of `importDeviceHistory` (api.js:597-619): append
the new events, re-sort the whole list by timestamp, and truncate to the
most recent `MAX_EVENTS` entries.  The JavaScript stable sort is modelled by
insertion sort on the same comparator. -/
def importMerge (history : List Event) (importedEvents : List Event) :
    List Event :=
  let merged :=
    List.insertionSort tsLE (history ++ importNewEvents history importedEvents)
  if merged.length > MAX_EVENTS then merged.drop (merged.length - MAX_EVENTS)
  else merged

/-- Range precondition on an event's replay fields: `dayOfWeek` in 0–6,
`minuteOfHour` in 0–59, `timeMinutes` in 0–1439. -/
def EventInRange (e : Event) : Prop :=
  0 ≤ e.dayOfWeek ∧ e.dayOfWeek ≤ 6 ∧
  0 ≤ e.minuteOfHour ∧ e.minuteOfHour ≤ 59 ∧
  0 ≤ e.timeMinutes ∧ e.timeMinutes ≤ 1439

/-- Range precondition on the current date parts: day in 0–6, minute in
0–59, minutes-of-day in 0–1439. -/
def NowInRange (np : NowParts) : Prop :=
  0 ≤ np.day ∧ np.day ≤ 6 ∧
  0 ≤ np.minute ∧ np.minute ≤ 59 ∧
  0 ≤ np.hour * 60 + np.minute ∧ np.hour * 60 + np.minute ≤ 1439

instance (e : Event) : Decidable (EventInRange e) := by
  unfold EventInRange; infer_instance

instance (np : NowParts) : Decidable (NowInRange np) := by
  unfold NowInRange; infer_instance

/-- Replay period in minutes: 60 in test (hourly) mode, 10080 in normal
(weekly) mode. -/
def periodMinutes (testMode : Bool) : Int := if testMode then 60 else 10080

theorem eventDelay_pos_le (testMode : Bool) (np : NowParts) (e : Event)
    (he : EventInRange e) (hn : NowInRange np) :
    0 < eventDelay testMode np e ∧
      eventDelay testMode np e ≤ periodMinutes testMode := by
  obtain ⟨hd0, hd6, hm0, hm59, ht0, ht1439⟩ := he
  obtain ⟨hn0, hn6, hmin0, hmin59, htm0, htm1439⟩ := hn
  unfold eventDelay periodMinutes
  cases testMode with
  | true => simp only [if_true]; split <;> constructor <;> omega
  | false =>
      simp only [Bool.false_eq_true, if_false]
      split
      · split <;> constructor <;> omega
      · rename_i hne
        have : e.dayOfWeek - np.day ≠ 0 := fun h => hne (by omega)
        split <;> constructor <;> omega

theorem calcStep_bounds (testMode : Bool) (np : NowParts)
    (acc : Option (Event × Int)) (e : Event)
    (he : EventInRange e) (hn : NowInRange np)
    (hacc : ∀ p, acc = some p → 0 < p.2 ∧ p.2 ≤ periodMinutes testMode) :
    ∀ p, calcStep testMode np acc e = some p →
      0 < p.2 ∧ p.2 ≤ periodMinutes testMode := by
  intro p hp
  have hb := eventDelay_pos_le testMode np e he hn
  unfold calcStep at hp
  cases acc with
  | none =>
      simp only at hp
      split at hp
      · cases hp; exact hb
      · cases hp
  | some q =>
      simp only at hp
      split at hp
      · cases hp; exact hb
      · cases hp; exact hacc q rfl

theorem calculateNextEvent_fold_bounds (testMode : Bool) (np : NowParts)
    (hn : NowInRange np) :
    ∀ (l : List Event) (acc : Option (Event × Int)),
      (∀ e ∈ l, EventInRange e) →
      (∀ p, acc = some p → 0 < p.2 ∧ p.2 ≤ periodMinutes testMode) →
      ∀ p, l.foldl (calcStep testMode np) acc = some p →
        0 < p.2 ∧ p.2 ≤ periodMinutes testMode := by
  intro l
  induction l with
  | nil => intro acc _ hacc p hp; exact hacc p hp
  | cons e rest ih =>
      intro acc hl hacc p hp
      simp only [List.foldl_cons] at hp
      exact ih (calcStep testMode np acc e)
        (fun x hx => hl x (List.mem_cons_of_mem e hx))
        (calcStep_bounds testMode np acc e (hl e (List.mem_cons_self e rest))
          hn hacc) p hp

/-- C1: for every history and mode, `calculateNextEvent` either returns no
result or returns a strictly positive delay of at most one period — at most
10080 minutes in normal (weekly) mode and at most 60 minutes in test
(hourly) mode — provided every event's `dayOfWeek` lies in 0–6,
`minuteOfHour` in 0–59, `timeMinutes` in 0–1439, and the current time's
fields lie in the same ranges. -/
theorem calculateNextEvent_delay_in_period (history : List Event)
    (testMode : Bool) (np : NowParts)
    (hh : ∀ e ∈ history, EventInRange e) (hn : NowInRange np)
    (ev : Event) (d : Int)
    (hres : calculateNextEvent history testMode np = some (ev, d)) :
    0 < d ∧ d ≤ periodMinutes testMode := by
  have := calculateNextEvent_fold_bounds testMode np hn history none hh
    (fun p hp => by cases hp) (ev, d) hres
  exact this

/-- Monday 19:30 "on" event of spec Scenarios A/B/D (day 1, 19:30,
timeMinutes 1170). -/
def evMon1930 : Event := ⟨1000, true, 1, 19, 30, 1170⟩

/-- Monday 23:15 "off" event of spec Scenarios A/B (day 1, 23:15,
timeMinutes 1395). -/
def evMon2315 : Event := ⟨2000, false, 1, 23, 15, 1395⟩

theorem calculateNextEvent_delay_in_period_witness :
    calculateNextEvent [evMon1930, evMon2315] false ⟨1, 19, 0⟩ =
      some (evMon1930, 30) ∧ 0 < (30 : Int) ∧ (30 : Int) ≤ periodMinutes false :=
  ⟨by decide,
   calculateNextEvent_delay_in_period [evMon1930, evMon2315] false ⟨1, 19, 0⟩
     (by decide) (by decide) evMon1930 30 (by decide)⟩

/-- C2 counterexample: with history [{Mon 19:30, true}, {Mon 23:15, false}]
and current time Monday 23:20, `calculateNextEvent` in normal mode returns
the true event with delay 9850 minutes, not the 10065 minutes the claim
states. -/
theorem calculateNextEvent_scenarioB_counterexample :
    calculateNextEvent [evMon1930, evMon2315] false ⟨1, 23, 20⟩ =
      some (evMon1930, 9850) ∧ (9850 : Int) ≠ 10065 := by
  constructor
  · decide
  · decide

/-- C2 amended: with history [{Mon 19:30, true}, {Mon 23:15, false}] in
normal mode, at Monday 19:00 `calculateNextEvent` returns the true event
with delay 30 minutes, and at Monday 23:20 it returns the true event with
delay 9850 minutes (wrapping to the following Monday: 10080 − 230). -/
theorem calculateNextEvent_scenarios :
    calculateNextEvent [evMon1930, evMon2315] false ⟨1, 19, 0⟩ =
        some (evMon1930, 30) ∧
      calculateNextEvent [evMon1930, evMon2315] false ⟨1, 23, 20⟩ =
        some (evMon1930, 9850) := by
  constructor
  · decide
  · decide

/-- Concrete current clock instant used in witnesses and counterexamples
(milliseconds). -/
def nowMs0 : Int := 1700000000000

/-- Concrete current date parts used in witnesses and counterexamples. -/
def np0 : NowParts := ⟨1, 12, 0⟩

/-- Fresh (within retention) recorded "off" event used in witnesses and
counterexamples. -/
def freshFalseEvent : Event := ⟨1700000000000, false, 1, 12, 0, 720⟩

/-- History already at the `MAX_EVENTS` cap, every entry fresh, last value
false. -/
def fullHistory : List Event := List.replicate 10000 freshFalseEvent

theorem fullHistory_getLast? : fullHistory.getLast? = some freshFalseEvent := by
  have h : fullHistory = List.replicate 9999 freshFalseEvent ++ [freshFalseEvent] :=
    List.replicate_succ' 9999 freshFalseEvent
  rw [h, List.getLast?_concat]

theorem recordDeviceEvent_fullHistory :
    recordDeviceEvent fullHistory true nowMs0 np0 =
      List.replicate 9999 freshFalseEvent ++ [mkEvent nowMs0 true np0] := by
  have hdup : isDuplicate fullHistory true = false := by
    unfold isDuplicate
    rw [fullHistory_getLast?]
    decide
  unfold recordDeviceEvent
  rw [hdup]
  simp only [Bool.false_eq_true, if_false]
  have hfilter :
      (fullHistory ++ [mkEvent nowMs0 true np0]).filter
          (fun e => e.timestamp > nowMs0 - keepDuration) =
        fullHistory ++ [mkEvent nowMs0 true np0] := by
    apply List.filter_eq_self.mpr
    intro a ha
    rcases List.mem_append.mp ha with h | h
    · have := List.eq_of_mem_replicate h
      subst this
      decide
    · simp only [List.mem_singleton] at h
      subst h
      decide
  rw [hfilter]
  have hlen : (fullHistory ++ [mkEvent nowMs0 true np0]).length = 10001 := by
    unfold fullHistory
    rw [List.length_append, List.length_replicate]
    rfl
  rw [hlen]
  rw [if_pos (by norm_num [MAX_EVENTS])]
  have h1 : 10001 - MAX_EVENTS = 1 := by norm_num [MAX_EVENTS]
  rw [h1]
  have hrep : fullHistory ++ [mkEvent nowMs0 true np0] =
      freshFalseEvent ::
        (List.replicate 9999 freshFalseEvent ++ [mkEvent nowMs0 true np0]) := rfl
  rw [hrep]
  rfl

/-- C4 counterexample: a key whose history already holds `MAX_EVENTS` fresh
entries (none aged past retention, last value false): recording true twice
consecutively leaves the history length at 10000 — the cap truncation eats
the append, so the length does not increase by 1. -/
theorem recordDeviceEvent_consecutive_counterexample :
    (∀ e ∈ fullHistory, e.timestamp > nowMs0 - keepDuration) ∧
      fullHistory.length = 10000 ∧
      (recordDeviceEvent (recordDeviceEvent fullHistory true nowMs0 np0)
          true nowMs0 np0).length = 10000 := by
  refine ⟨?_, ?_, ?_⟩
  · intro e he
    have := List.eq_of_mem_replicate he
    subst this
    decide
  · unfold fullHistory
    exact List.length_replicate 10000 freshFalseEvent
  · rw [recordDeviceEvent_fullHistory]
    have hdup : isDuplicate
        (List.replicate 9999 freshFalseEvent ++ [mkEvent nowMs0 true np0])
        true = true := by
      unfold isDuplicate
      rw [List.getLast?_concat]
      rfl
    unfold recordDeviceEvent
    rw [hdup]
    rw [if_pos rfl]
    rw [List.length_append, List.length_replicate]
    rfl

/-- C4 amended: `recordDeviceEvent` is a no-op on the stored history when the
most recently recorded event for the key has the same value; and recording
true twice consecutively increases the history length by exactly 1 provided
no existing entry has aged past retention at the call time and the history
is strictly below the `MAX_EVENTS` cap (at the cap, truncation cancels the
increase). -/
theorem recordDeviceEvent_consecutive (history : List Event) (value : Bool)
    (nowMs : Int) (np : NowParts) :
    ((∃ le, history.getLast? = some le ∧ le.value = value) →
        recordDeviceEvent history value nowMs np = history) ∧
      ((∀ e ∈ history, e.timestamp > nowMs - keepDuration) →
        (∀ le, history.getLast? = some le → le.value = false) →
        history.length < MAX_EVENTS →
        (recordDeviceEvent (recordDeviceEvent history true nowMs np)
            true nowMs np).length = history.length + 1) := by
  constructor
  · rintro ⟨le, hle, hval⟩
    have hdup : isDuplicate history value = true := by
      unfold isDuplicate
      rw [hle]
      simp [hval]
    unfold recordDeviceEvent
    rw [hdup]
    simp
  · intro hfresh hlast hlen
    have hdup : isDuplicate history true = false := by
      unfold isDuplicate
      cases h : history.getLast? with
      | none => rfl
      | some le =>
          have hv := hlast le h
          simp [hv]
    have hfirst : recordDeviceEvent history true nowMs np =
        history ++ [mkEvent nowMs true np] := by
      unfold recordDeviceEvent
      rw [hdup]
      simp only [Bool.false_eq_true, if_false]
      have hfilter :
          (history ++ [mkEvent nowMs true np]).filter
              (fun e => e.timestamp > nowMs - keepDuration) =
            history ++ [mkEvent nowMs true np] := by
        apply List.filter_eq_self.mpr
        intro a ha
        rcases List.mem_append.mp ha with h | h
        · exact decide_eq_true (hfresh a h)
        · simp only [List.mem_singleton] at h
          subst h
          have : nowMs - keepDuration < nowMs := by
            unfold keepDuration; omega
          exact decide_eq_true this
      rw [hfilter]
      have : ¬ (history ++ [mkEvent nowMs true np]).length > MAX_EVENTS := by
        simp only [List.length_append, List.length_singleton]
        omega
      simp only [this, if_false]
    rw [hfirst]
    have hdup2 : isDuplicate (history ++ [mkEvent nowMs true np]) true = true := by
      unfold isDuplicate
      rw [List.getLast?_concat]
      rfl
    unfold recordDeviceEvent
    rw [hdup2]
    simp

theorem recordDeviceEvent_consecutive_witness :
    (recordDeviceEvent (recordDeviceEvent [freshFalseEvent] true nowMs0 np0)
        true nowMs0 np0).length = [freshFalseEvent].length + 1 :=
  (recordDeviceEvent_consecutive [freshFalseEvent] true nowMs0 np0).2
    (by decide)
    (fun le h => by
      have h' : some freshFalseEvent = some le := h
      cases h'
      rfl)
    (by decide)

/-- C5: after an append performed by `recordDeviceEvent` (the non-duplicate
branch) the stored history holds no event older than 8 days relative to the
append time and at most `MAX_EVENTS` entries; the daily cleanup sweep
likewise leaves no event older than 8 days relative to the sweep time, and
preserves the `MAX_EVENTS` bound. -/
theorem history_retention_invariant (history : List Event) (value : Bool)
    (nowMs : Int) (np : NowParts) :
    (isDuplicate history value = false →
        (∀ e ∈ recordDeviceEvent history value nowMs np,
            e.timestamp > nowMs - keepDuration) ∧
          (recordDeviceEvent history value nowMs np).length ≤ MAX_EVENTS) ∧
      ((∀ e ∈ cleanupSweep history nowMs,
          e.timestamp > nowMs - keepDuration) ∧
        (history.length ≤ MAX_EVENTS →
          (cleanupSweep history nowMs).length ≤ MAX_EVENTS)) := by
  constructor
  · intro hdup
    unfold recordDeviceEvent
    rw [hdup]
    simp only [Bool.false_eq_true, if_false]
    constructor
    · intro e he
      split at he
      · have hmem := List.mem_of_mem_drop he
        have := (List.mem_filter.mp hmem).2
        exact of_decide_eq_true this
      · have := (List.mem_filter.mp he).2
        exact of_decide_eq_true this
    · split
      · rename_i hgt
        rw [List.length_drop]
        omega
      · rename_i hgt
        omega
  · constructor
    · intro e he
      have := (List.mem_filter.mp he).2
      exact of_decide_eq_true this
    · intro hlen
      calc (cleanupSweep history nowMs).length
          ≤ history.length := List.length_filter_le _ _
        _ ≤ MAX_EVENTS := hlen

theorem history_retention_invariant_witness :
    (∀ e ∈ recordDeviceEvent [freshFalseEvent] true nowMs0 np0,
        e.timestamp > nowMs0 - keepDuration) ∧
      (recordDeviceEvent [freshFalseEvent] true nowMs0 np0).length ≤ MAX_EVENTS :=
  (history_retention_invariant [freshFalseEvent] true nowMs0 np0).1 (by decide)

theorem findLastBefore_sorted (targetMs : Int) :
    ∀ (l : List Event), l.Pairwise tsLE → ∀ (acc : Option Event),
      findLastBefore targetMs l acc =
        match (l.filter (fun e => e.timestamp ≤ targetMs)).getLast? with
        | some x => some x
        | none => acc := by
  intro l
  induction l with
  | nil => intro _ acc; rfl
  | cons e rest ih =>
      intro hsorted acc
      obtain ⟨hhead, htail⟩ := List.pairwise_cons.mp hsorted
      unfold findLastBefore
      by_cases hts : e.timestamp ≤ targetMs
      · rw [if_pos hts]
        rw [ih htail (some e)]
        have hf : (e :: rest).filter (fun x => x.timestamp ≤ targetMs) =
            e :: rest.filter (fun x => x.timestamp ≤ targetMs) := by
          simp [List.filter_cons, hts]
        rw [hf]
        cases hrf : rest.filter (fun x => decide (x.timestamp ≤ targetMs)) with
        | nil => rfl
        | cons y ys =>
            rw [List.getLast?_cons_cons]
            cases hy : (y :: ys).getLast? with
            | none => simp at hy
            | some x => rfl
      · rw [if_neg hts]
        have hrest : rest.filter (fun x => decide (x.timestamp ≤ targetMs)) = [] := by
          apply List.filter_eq_nil_iff.mpr
          intro a ha
          have hle := hhead a ha
          unfold tsLE at hle
          simp only [decide_eq_true_eq]
          omega
        have hf : (e :: rest).filter (fun x => decide (x.timestamp ≤ targetMs)) = [] := by
          rw [List.filter_cons]
          simp only [hts, decide_False]
          exact hrest
        rw [hf]
        rfl

/-- C3: `syncInitialStates` computes `targetTime = now − period` (7 days in
normal mode, 1 hour in test mode); for a tracked key with non-empty
timestamp-sorted history, the forward scan (stopping at the first event past
the target) selects the last event with timestamp ≤ target; when that event
exists and its value differs from the live value the sync issues exactly one
corrective write, and otherwise it records already-correct or
no-historical-state without writing. -/
theorem syncInitialStates_correct (history : List Event) (nowMs : Int)
    (testMode : Bool) (liveValue : Bool)
    (hsorted : history.Pairwise tsLE) :
    (syncTargetMs nowMs testMode =
        nowMs - (if testMode then 3600000 else 604800000)) ∧
      (findLastBefore (syncTargetMs nowMs testMode) history none =
        (history.filter
            (fun e => e.timestamp ≤ syncTargetMs nowMs testMode)).getLast?) ∧
      (∀ ev, findLastBefore (syncTargetMs nowMs testMode) history none = some ev →
        (ev.value ≠ liveValue →
          syncDeviceState history nowMs testMode liveValue =
            ⟨SyncStatus.synced, [ev.value]⟩) ∧
        (ev.value = liveValue →
          syncDeviceState history nowMs testMode liveValue =
            ⟨SyncStatus.alreadyCorrect, []⟩)) ∧
      (history ≠ [] →
        findLastBefore (syncTargetMs nowMs testMode) history none = none →
        syncDeviceState history nowMs testMode liveValue =
          ⟨SyncStatus.noHistoricalState, []⟩) := by
  refine ⟨?_, ?_, ?_, ?_⟩
  · unfold syncTargetMs
    cases testMode <;> norm_num
  · rw [findLastBefore_sorted (syncTargetMs nowMs testMode) history hsorted none]
    cases (history.filter
        (fun e => e.timestamp ≤ syncTargetMs nowMs testMode)).getLast? <;> rfl
  · intro ev hev
    have hne : ¬ history.isEmpty := by
      cases history with
      | nil => simp [findLastBefore] at hev
      | cons a l => simp
    constructor
    · intro hdiff
      unfold syncDeviceState
      rw [if_neg hne, hev]
      show (if liveValue ≠ ev.value then
          (⟨SyncStatus.synced, [ev.value]⟩ : SyncOutcome)
        else ⟨SyncStatus.alreadyCorrect, []⟩) = _
      rw [if_pos (fun h => hdiff h.symm)]
    · intro heq
      unfold syncDeviceState
      rw [if_neg hne, hev]
      show (if liveValue ≠ ev.value then
          (⟨SyncStatus.synced, [ev.value]⟩ : SyncOutcome)
        else ⟨SyncStatus.alreadyCorrect, []⟩) = _
      rw [if_neg (by simp [heq])]
  · intro hne hnone
    have hne' : ¬ history.isEmpty := by
      cases history with
      | nil => exact absurd rfl hne
      | cons a l => simp
    unfold syncDeviceState
    rw [if_neg hne', hnone]

/-- Concrete clock instant for spec Scenario D: "now" is a Monday 20:00. -/
def nowMsD : Int := 1700000000000

/-- Scenario D history event one week back minus 30 minutes: Monday 19:30,
value true, timestamp 30 minutes before the 7-day-ago target. -/
def evD1 : Event := ⟨1699393400000, true, 1, 19, 30, 1170⟩

/-- Scenario D history event after the target: Monday 23:15 (3h15m past the
7-day-ago target), value false. -/
def evD2 : Event := ⟨1699406900000, false, 1, 23, 15, 1395⟩

theorem syncInitialStates_correct_witness :
    syncDeviceState [evD1, evD2] nowMsD false false =
      ⟨SyncStatus.synced, [true]⟩ :=
  ((syncInitialStates_correct [evD1, evD2] nowMsD false false
      (by unfold tsLE; decide)).2.2.1 evD1 (by decide)).1 (by decide)

/-- C6: when a replay timer fires while vacation mode is active and the key
is still tracked, `executeAction` performs exactly one live-value read, and
issues exactly one corrective write precisely when the live value differs
from the replayed event's value; when they agree, no write is issued. -/
theorem executeAction_corrective_write (vacationModeActive tracked : Bool)
    (currentValue value : Bool)
    (hactive : vacationModeActive = true) (htracked : tracked = true) :
    (executeAction vacationModeActive tracked currentValue value).reads = 1 ∧
      (currentValue ≠ value →
        (executeAction vacationModeActive tracked currentValue value).writes =
          [value]) ∧
      (currentValue = value →
        (executeAction vacationModeActive tracked currentValue value).writes =
          []) := by
  subst hactive htracked
  unfold executeAction
  by_cases h : currentValue = value
  · rw [if_neg (by simp), if_neg (by simp), if_pos h]
    exact ⟨rfl, fun hd => absurd h hd, fun _ => rfl⟩
  · rw [if_neg (by simp), if_neg (by simp), if_neg h]
    exact ⟨rfl, fun _ => rfl, fun he => absurd he h⟩

theorem executeAction_corrective_write_witness :
    (executeAction true true false true).reads = 1 ∧
      (executeAction true true false true).writes = [true] :=
  ⟨(executeAction_corrective_write true true false true rfl rfl).1,
   (executeAction_corrective_write true true false true rfl rfl).2.1
     (by decide)⟩

/-- C10: with `vacationModeActive` false, `executeAction` performs no device
read or write, `scheduleNextAction` leaves the scheduler state untouched,
and hence a timer callback firing after replay has been disabled changes no
device state and adds no entry to `scheduledTimeouts`. -/
theorem disabled_fire_is_noop (s : SchedState) (t : Timer) (testMode : Bool)
    (deviceId : String) (tracked : Bool) (currentValue : Bool) (np : NowParts)
    (freshHandle : Nat) :
    executeAction false tracked currentValue t.value = ⟨0, []⟩ ∧
      scheduleNextAction s false testMode deviceId t.capturedHistory np
          freshHandle = s ∧
      fireTimer s t false testMode deviceId tracked currentValue np
          freshHandle = (⟨0, []⟩, s) := by
  have h1 : executeAction false tracked currentValue t.value = ⟨0, []⟩ := by
    unfold executeAction
    rw [if_pos (by simp)]
  have h2 : scheduleNextAction s false testMode deviceId t.capturedHistory np
      freshHandle = s := by
    unfold scheduleNextAction
    rw [if_pos (by simp)]
  exact ⟨h1, h2, by unfold fireTimer; rw [h1, h2]⟩

/-- Stale event at exactly the retention cutoff relative to `nowMs0`; it is
trimmed from the stored history by `recordDeviceEvent` but survives in the
array captured by an armed timer closure (the in-place push mutates the
captured array, the trim builds a fresh one). -/
def staleOldEvent : Event := ⟨1699308800000, true, 2, 10, 10, 610⟩

/-- Fresh "off" event preceding the recorded one in the stale-snapshot
scenario. -/
def staleFreshEvent : Event := ⟨1699999000000, false, 2, 8, 20, 500⟩

/-- C7 counterexample: arm a timer over history
[staleOldEvent, staleFreshEvent], then run
`recordDeviceEvent(key, true)`: the stored history becomes
[staleFreshEvent, recorded] (the old event is trimmed) while the captured
array becomes [staleOldEvent, staleFreshEvent, recorded].  At fire time the
handler recomputes from the captured array (app.js:1911) and picks the
trimmed stale event — a different result than recomputing from the current
stored history, so the fire handler does not use the history table's current
contents. -/
theorem fire_recompute_stale_counterexample :
    recordDeviceEvent [staleOldEvent, staleFreshEvent] true nowMs0 np0 =
        [staleFreshEvent, mkEvent nowMs0 true np0] ∧
      recordAppend [staleOldEvent, staleFreshEvent] true nowMs0 np0 =
        [staleOldEvent, staleFreshEvent, mkEvent nowMs0 true np0] ∧
      fireRecompute
          ⟨true, 7,
            recordAppend [staleOldEvent, staleFreshEvent] true nowMs0 np0⟩
          false ⟨2, 10, 0⟩ =
        some (staleOldEvent, 10) ∧
      fireRecomputeSpec
          (recordDeviceEvent [staleOldEvent, staleFreshEvent] true nowMs0 np0)
          false ⟨2, 10, 0⟩ =
        some (mkEvent nowMs0 true np0, 8760) := by
  refine ⟨by decide, by decide, by decide, by decide⟩

theorem mapGet_mapSet_self (m : List (String × Timer)) (k : String)
    (t : Timer) : mapGet (mapSet m k t) k = some t := by
  induction m with
  | nil => simp [mapSet, mapGet]
  | cons p rest ih =>
      obtain ⟨k', t'⟩ := p
      unfold mapSet
      by_cases h : k' = k
      · rw [if_pos h]
        simp [mapGet]
      · rw [if_neg h]
        unfold mapGet
        rw [if_neg h]
        exact ih

/-- C7 amended: when a replay timer fires, the handler rearms using the
history snapshot captured by the timer closure at arm time (app.js:1911),
not a fresh read of the history table: the rearmed timer for the key
replays the next event computed from `t.capturedHistory` and captures that
same snapshot again.  In-place appends are visible to the snapshot, but a
mutation that replaces the stored array (the retention trim of
`recordDeviceEvent`, the cleanup sweep, an import) does not affect the
recomputation. -/
theorem fire_rearm_from_snapshot (s : SchedState) (t : Timer)
    (testMode : Bool) (deviceId : String) (tracked : Bool)
    (currentValue : Bool) (np : NowParts) (freshHandle : Nat)
    (ev : Event) (d : Int)
    (hcalc : calculateNextEvent t.capturedHistory testMode np = some (ev, d)) :
    mapGet
        (fireTimer s t true testMode deviceId tracked currentValue np
            freshHandle).2.scheduledTimeouts deviceId =
      some ⟨ev.value, freshHandle, t.capturedHistory⟩ := by
  have hne : ¬ t.capturedHistory.isEmpty := by
    cases h : t.capturedHistory with
    | nil =>
        rw [h] at hcalc
        exact absurd hcalc (by simp [calculateNextEvent])
    | cons a l => simp
  unfold fireTimer scheduleNextAction
  rw [if_neg (by simp), if_neg hne, hcalc]
  exact mapGet_mapSet_self _ deviceId _

theorem fire_rearm_from_snapshot_witness :
    mapGet
        (fireTimer ⟨[], []⟩ ⟨true, 7, [evMon1930]⟩ true false "k" true false
            np0 9).2.scheduledTimeouts "k" =
      some ⟨true, 9, [evMon1930]⟩ :=
  fire_rearm_from_snapshot ⟨[], []⟩ ⟨true, 7, [evMon1930]⟩ false "k" true
    false np0 9 evMon1930 450 (by decide)

/-- Timeout handles referenced by the `scheduledTimeouts` map. -/
def mapHandles (m : List (String × Timer)) : List Nat :=
  m.map (fun p => p.2.handle)

/-- Well-formedness of the scheduler timer state: map keys are distinct
(JavaScript `Map` semantics), the referenced handles are distinct, and the
armed-and-uncleared handles are exactly the ones the map references — hence
at most one outstanding timer per tracking key. -/
def TimerInv (s : SchedState) : Prop :=
  (s.scheduledTimeouts.map Prod.fst).Nodup ∧
    (mapHandles s.scheduledTimeouts).Nodup ∧
    s.outstanding.Perm (mapHandles s.scheduledTimeouts)

theorem mapGet_handle_mem (m : List (String × Timer)) (k : String) (t : Timer)
    (h : mapGet m k = some t) : t.handle ∈ mapHandles m := by
  induction m with
  | nil => exact absurd h (by simp [mapGet])
  | cons p rest ih =>
      obtain ⟨k', t'⟩ := p
      unfold mapGet at h
      by_cases hk : k' = k
      · rw [if_pos hk] at h
        cases h
        exact List.mem_cons_self _ _
      · rw [if_neg hk] at h
        exact List.mem_cons_of_mem _ (ih h)

theorem mapGet_none_keys (m : List (String × Timer)) (k : String)
    (h : mapGet m k = none) : k ∉ m.map Prod.fst := by
  induction m with
  | nil => simp
  | cons p rest ih =>
      obtain ⟨k', t'⟩ := p
      unfold mapGet at h
      by_cases hk : k' = k
      · rw [if_pos hk] at h
        cases h
      · rw [if_neg hk] at h
        simp only [List.map_cons, List.mem_cons]
        rintro (rfl | hmem)
        · exact hk rfl
        · exact ih h hmem

theorem mapSet_of_none (m : List (String × Timer)) (k : String) (t : Timer)
    (h : mapGet m k = none) : mapSet m k t = m ++ [(k, t)] := by
  induction m with
  | nil => rfl
  | cons p rest ih =>
      obtain ⟨k', t'⟩ := p
      unfold mapGet at h
      unfold mapSet
      by_cases hk : k' = k
      · rw [if_pos hk] at h
        cases h
      · rw [if_neg hk] at h
        rw [if_neg hk, ih h]
        rfl

theorem mapSet_keys_of_some (m : List (String × Timer)) (k : String)
    (told tnew : Timer) (h : mapGet m k = some told) :
    (mapSet m k tnew).map Prod.fst = m.map Prod.fst := by
  induction m with
  | nil => exact absurd h (by simp [mapGet])
  | cons p rest ih =>
      obtain ⟨k', t'⟩ := p
      unfold mapGet at h
      unfold mapSet
      by_cases hk : k' = k
      · rw [if_pos hk, hk]
        rfl
      · rw [if_neg hk] at h
        rw [if_neg hk]
        simp only [List.map_cons]
        rw [ih h]

theorem mapSet_handles_of_some (m : List (String × Timer)) (k : String)
    (told tnew : Timer) (h : mapGet m k = some told)
    (hhandles : (mapHandles m).Nodup) :
    (mapHandles (mapSet m k tnew)).Perm
      (tnew.handle :: (mapHandles m).erase told.handle) := by
  induction m with
  | nil => exact absurd h (by simp [mapGet])
  | cons p rest ih =>
      obtain ⟨k', t'⟩ := p
      unfold mapGet at h
      unfold mapSet
      by_cases hk : k' = k
      · rw [if_pos hk] at h
        cases h
        rw [if_pos hk]
        unfold mapHandles
        simp only [List.map_cons]
        rw [List.erase_cons_head]
      · rw [if_neg hk] at h
        rw [if_neg hk]
        obtain ⟨hnotmem, hrest⟩ := List.nodup_cons.mp hhandles
        have htoldmem : told.handle ∈ mapHandles rest := mapGet_handle_mem rest k told h
        have hne : told.handle ≠ t'.handle := by
          intro he
          apply hnotmem
          show t'.handle ∈ List.map (fun p => p.2.handle) rest
          rw [← he]
          exact htoldmem
        have ihp := ih h hrest
        show (t'.handle :: mapHandles (mapSet rest k tnew)).Perm
          (tnew.handle :: ((t'.handle :: mapHandles rest).erase told.handle))
        rw [List.erase_cons_tail (by simpa using hne.symm)]
        exact (ihp.cons t'.handle).trans
          (List.Perm.swap tnew.handle t'.handle _)

theorem foldl_erase_of_perm :
    ∀ (hs l : List Nat), l.Perm hs →
      hs.foldl (fun acc h => acc.erase h) l = [] := by
  intro hs
  induction hs with
  | nil => intro l hp; exact hp.eq_nil
  | cons h rest ih =>
      intro l hp
      simp only [List.foldl_cons]
      apply ih
      have := hp.erase h
      rwa [List.erase_cons_head] at this

/-- C8: every operation keeps at most one outstanding timer per tracking
key: `scheduleNextAction` with a fresh timeout handle preserves the timer
invariant, it cancels the key's previous timer handle before arming the new
one (the old handle is no longer outstanding and the map holds the fresh
one), and disabling replay from the active state cancels every outstanding
timer and leaves `scheduledTimeouts` empty. -/
theorem timer_state_invariant (s : SchedState) (testMode : Bool)
    (deviceId : String) (history : List Event) (np : NowParts)
    (freshHandle : Nat) (hinv : TimerInv s)
    (hfresh : freshHandle ∉ s.outstanding) :
    TimerInv (scheduleNextAction s true testMode deviceId history np
        freshHandle) ∧
      (∀ t ev d, mapGet s.scheduledTimeouts deviceId = some t →
        ¬ history.isEmpty →
        calculateNextEvent history testMode np = some (ev, d) →
        t.handle ∉
            (scheduleNextAction s true testMode deviceId history np
                freshHandle).outstanding ∧
          mapGet
              (scheduleNextAction s true testMode deviceId history np
                  freshHandle).scheduledTimeouts deviceId =
            some ⟨ev.value, freshHandle, history⟩) ∧
      (disableVacationMode s true).scheduledTimeouts = [] ∧
      (disableVacationMode s true).outstanding = [] := by
  obtain ⟨hkeys, hhandles, hperm⟩ := hinv
  have hfreshh : freshHandle ∉ mapHandles s.scheduledTimeouts :=
    fun hmem => hfresh (hperm.symm.subset hmem)
  have hdisable : (disableVacationMode s true).scheduledTimeouts = [] ∧
      (disableVacationMode s true).outstanding = [] := by
    unfold disableVacationMode
    rw [if_neg (by simp)]
    exact ⟨rfl, foldl_erase_of_perm _ _ hperm⟩
  refine ⟨?_, ?_, hdisable.1, hdisable.2⟩
  · unfold scheduleNextAction
    rw [if_neg (by simp)]
    by_cases hempty : history.isEmpty
    · rw [if_pos hempty]
      exact ⟨hkeys, hhandles, hperm⟩
    · rw [if_neg hempty]
      cases hcalc : calculateNextEvent history testMode np with
      | none => exact ⟨hkeys, hhandles, hperm⟩
      | some p =>
          obtain ⟨ev, d⟩ := p
          cases hget : mapGet s.scheduledTimeouts deviceId with
          | some told =>
              have hset := mapSet_handles_of_some s.scheduledTimeouts deviceId
                told ⟨ev.value, freshHandle, history⟩ hget hhandles
              refine ⟨?_, ?_, ?_⟩
              · rw [mapSet_keys_of_some s.scheduledTimeouts deviceId told _ hget]
                exact hkeys
              · apply hset.symm.nodup
                apply List.nodup_cons.mpr
                exact ⟨fun hmem => hfreshh (List.mem_of_mem_erase hmem),
                  hhandles.erase _⟩
              · show (freshHandle :: s.outstanding.erase told.handle).Perm
                  (mapHandles (mapSet s.scheduledTimeouts deviceId
                    ⟨ev.value, freshHandle, history⟩))
                exact ((hperm.erase told.handle).cons freshHandle).trans
                  hset.symm
          | none =>
              show TimerInv
                ⟨mapSet s.scheduledTimeouts deviceId
                    ⟨ev.value, freshHandle, history⟩,
                  freshHandle :: s.outstanding⟩
              rw [mapSet_of_none s.scheduledTimeouts deviceId _ hget]
              have hknotin := mapGet_none_keys s.scheduledTimeouts deviceId hget
              refine ⟨?_, ?_, ?_⟩
              · simp only [List.map_append, List.map_cons, List.map_nil]
                apply (List.perm_append_singleton _ _).symm.nodup
                exact List.nodup_cons.mpr ⟨hknotin, hkeys⟩
              · unfold mapHandles
                simp only [List.map_append, List.map_cons, List.map_nil]
                apply (List.perm_append_singleton _ _).symm.nodup
                exact List.nodup_cons.mpr ⟨hfreshh, hhandles⟩
              · show (freshHandle :: s.outstanding).Perm
                  (mapHandles (s.scheduledTimeouts ++
                    [(deviceId, ⟨ev.value, freshHandle, history⟩)]))
                unfold mapHandles
                rw [List.map_append]
                exact (hperm.cons freshHandle).trans
                  (List.perm_append_singleton _ _).symm
  · intro t ev d hget hne hcalc
    have houtnodup : s.outstanding.Nodup := hperm.symm.nodup hhandles
    have hthandle : t.handle ∈ mapHandles s.scheduledTimeouts :=
      mapGet_handle_mem _ _ _ hget
    have htfresh : t.handle ≠ freshHandle :=
      fun he => hfreshh (he ▸ hthandle)
    unfold scheduleNextAction
    rw [if_neg (by simp), if_neg hne, hcalc, hget]
    constructor
    · show t.handle ∉ freshHandle :: s.outstanding.erase t.handle
      simp only [List.mem_cons]
      rintro (he | hmem)
      · exact htfresh he
      · exact ((houtnodup.mem_erase_iff.mp hmem).1) rfl
    · exact mapGet_mapSet_self _ deviceId _

theorem timer_state_invariant_witness :
    TimerInv
        (scheduleNextAction
          ⟨[("k", ⟨true, 3, [evMon1930]⟩)], [3]⟩ true false "k" [evMon1930]
          np0 9) ∧
      (disableVacationMode
          ⟨[("k", ⟨true, 3, [evMon1930]⟩)], [3]⟩ true).scheduledTimeouts = [] ∧
      (disableVacationMode
          ⟨[("k", ⟨true, 3, [evMon1930]⟩)], [3]⟩ true).outstanding = [] := by
  have h := timer_state_invariant ⟨[("k", ⟨true, 3, [evMon1930]⟩)], [3]⟩
    false "k" [evMon1930] np0 9
    ⟨by decide, by decide, List.Perm.refl _⟩ (by decide)
  exact ⟨h.1, h.2.2.1, h.2.2.2⟩

instance : IsTotal Event tsLE := ⟨fun a b => Int.le_total a.timestamp b.timestamp⟩

instance : IsTrans Event tsLE := ⟨fun _ _ _ hab hbc => le_trans hab hbc⟩

/-- Imported point far older than the 8-day retention window relative to
`nowMs0`. -/
def importOldEvent : Event := ⟨1690000000000, true, 6, 10, 0, 600⟩

/-- First of two imported points carrying the same value true. -/
def importDupA : Event := ⟨1699999100000, true, 2, 9, 0, 540⟩

/-- Second imported point with the same value true, adjacent to the first
after the merge. -/
def importDupB : Event := ⟨1699999200000, true, 2, 9, 1, 541⟩

/-- C9 counterexample: importing the points [importOldEvent, importDupA,
importDupB] into an empty history retains an event that is more than 8 days
old and leaves two adjacent entries with the same value — the merge applies
neither the 8-day retention trim nor the consecutive-value dedup of
`recordDeviceEvent` (the retention sweep at the same instant would have
removed the old event). -/
theorem importMerge_counterexample :
    importMerge [] [importOldEvent, importDupA, importDupB] =
        [importOldEvent, importDupA, importDupB] ∧
      importDupA.value = importDupB.value ∧
      importOldEvent.timestamp ≤ nowMs0 - keepDuration ∧
      cleanupSweep (importMerge [] [importOldEvent, importDupA, importDupB])
          nowMs0 =
        [importDupA, importDupB] := by
  refine ⟨by decide, by decide, by decide, by decide⟩

/-- C9 amended: `importDeviceHistory` merges externally sourced points into
the key's history deduplicating only by exact timestamp and capping at
`MAX_EVENTS`: the result is sorted by timestamp, at most `MAX_EVENTS` long,
has pairwise-distinct timestamps when the inputs do, and — whenever the
merge is below the cap — is a permutation of the old history plus the new
points, so no event is dropped by age and no consecutive-value dedup is
applied. -/
theorem importMerge_props (history importedEvents : List Event)
    (hh : history.Pairwise (fun a b => a.timestamp ≠ b.timestamp))
    (hi : importedEvents.Pairwise (fun a b => a.timestamp ≠ b.timestamp)) :
    List.Sorted tsLE (importMerge history importedEvents) ∧
      (importMerge history importedEvents).length ≤ MAX_EVENTS ∧
      (importMerge history importedEvents).Pairwise
        (fun a b => a.timestamp ≠ b.timestamp) ∧
      ((history ++ importNewEvents history importedEvents).length ≤
          MAX_EVENTS →
        (importMerge history importedEvents).Perm
          (history ++ importNewEvents history importedEvents)) := by
  have hsymm : ∀ {x y : Event},
      x.timestamp ≠ y.timestamp → y.timestamp ≠ x.timestamp :=
    fun h => Ne.symm h
  have hsort : List.Sorted tsLE
      (List.insertionSort tsLE
        (history ++ importNewEvents history importedEvents)) :=
    List.sorted_insertionSort tsLE _
  have hperm : (List.insertionSort tsLE
      (history ++ importNewEvents history importedEvents)).Perm
      (history ++ importNewEvents history importedEvents) :=
    List.perm_insertionSort tsLE _
  have hnewp : (importNewEvents history importedEvents).Pairwise
      (fun a b => a.timestamp ≠ b.timestamp) := by
    unfold importNewEvents
    apply List.Pairwise.sublist (List.filter_sublist _)
    exact ((List.perm_insertionSort tsLE importedEvents).pairwise_iff
      hsymm).mpr hi
  have hcross : ∀ a ∈ history, ∀ b ∈ importNewEvents history importedEvents,
      a.timestamp ≠ b.timestamp := by
    intro a ha b hb
    have hpred := (List.mem_filter.mp hb).2
    simp only [decide_not, Bool.not_eq_true', decide_eq_false_iff_not] at hpred
    intro he
    apply hpred
    simp only [List.contains_iff_exists_mem_beq]
    exact ⟨a.timestamp, List.mem_map_of_mem (fun x => x.timestamp) ha,
      by simp [he]⟩
  have hL : (history ++ importNewEvents history importedEvents).Pairwise
      (fun a b => a.timestamp ≠ b.timestamp) :=
    List.pairwise_append.mpr ⟨hh, hnewp, hcross⟩
  have hM : (List.insertionSort tsLE
      (history ++ importNewEvents history importedEvents)).Pairwise
      (fun a b => a.timestamp ≠ b.timestamp) :=
    (hperm.pairwise_iff hsymm).mpr hL
  have hdef : importMerge history importedEvents =
      (if (List.insertionSort tsLE
            (history ++ importNewEvents history importedEvents)).length >
          MAX_EVENTS then
        (List.insertionSort tsLE
            (history ++ importNewEvents history importedEvents)).drop
          ((List.insertionSort tsLE
              (history ++ importNewEvents history importedEvents)).length -
            MAX_EVENTS)
      else
        List.insertionSort tsLE
          (history ++ importNewEvents history importedEvents)) := rfl
  rw [hdef]
  refine ⟨?_, ?_, ?_, ?_⟩
  · split
    · exact List.Pairwise.sublist (List.drop_sublist _ _) hsort
    · exact hsort
  · split
    · rename_i hgt
      rw [List.length_drop]
      omega
    · rename_i hgt
      omega
  · split
    · exact List.Pairwise.sublist (List.drop_sublist _ _) hM
    · exact hM
  · intro hlen
    rw [if_neg (by rw [hperm.length_eq]; omega)]
    exact hperm

theorem importMerge_props_witness :
    List.Sorted tsLE (importMerge [freshFalseEvent] [importDupA]) ∧
      (importMerge [freshFalseEvent] [importDupA]).Perm
        ([freshFalseEvent] ++ importNewEvents [freshFalseEvent] [importDupA]) := by
  have h := importMerge_props [freshFalseEvent] [importDupA]
    (List.pairwise_singleton _ _) (List.pairwise_singleton _ _)
  exact ⟨h.1, h.2.2.2 (by decide)⟩

end PresenceSim
